import Mathlib

/-!
Verification of the walk-forward cross-validation workflow of the
machine-learning-for-trading notebooks: the `MultipleTimeSeriesCV` splitter,
the hyperparameter-selection helpers `get_lgb_params` / `get_cb_params`, the
categorical factorization step, and the panel-ordering produced by
`sort_index()` before the panel is passed to the splitter.

The notebooks import `MultipleTimeSeriesCV` from a `utils` module that is not
among the supplied sources, so the splitter itself is modelled from the
specification; the selection helpers, the factorization step and the sorting
step are translated from the notebook cells.
-/

namespace MLT

/-- A row of a panel dataset: an entity identifier and an integer timestamp.
Feature and label columns are irrelevant to index computation and are omitted;
row positions are indices into the row list. -/
structure Row where
  entity : Int
  ts : Int
deriving DecidableEq

/-- Modelled from the spec: the `MultipleTimeSeriesCV` class lives in a `utils`
module missing from the supplied sources.  Its configuration scalars, per
section 4.1 of the spec, are `n_splits`, `train_period_length`,
`test_period_length` (positive) and `lookahead` (non-negative); the validated
configuration is represented with natural-number fields. -/
structure MultipleTimeSeriesCV where
  n_splits : Nat
  train_period_length : Nat
  test_period_length : Nat
  lookahead : Nat
deriving DecidableEq

/-- Modelled from the spec: construction validates the configuration scalars
and fails with a configuration error exactly when a length or `n_splits` is
non-positive or `lookahead` is negative (section 4.1 failure conditions). -/
def mkMultipleTimeSeriesCV (n train test look : Int) : Except String MultipleTimeSeriesCV :=
  if n ≤ 0 ∨ train ≤ 0 ∨ test ≤ 0 ∨ look < 0 then
    Except.error ("configuration error")
  else
    Except.ok ⟨n.toNat, train.toNat, test.toNat, look.toNat⟩

/-- Modelled from the spec: the sorted sequence of distinct timestamps present
in the dataset, the single shared time axis of section 4.1. -/
def uniqueTs (rows : List Row) : List Int :=
  ((rows.map Row.ts).dedup).insertionSort (· ≤ ·)

/-- Row positions of the dataset whose timestamp lies in the given window
(section 4.1 step 3: every entity sharing a selected timestamp is included). -/
def positionsOf (rows : List Row) (w : List Int) : List Nat :=
  (List.range rows.length).filter (fun p => (rows[p]?).any (fun r => decide (r.ts ∈ w)))

/-- Modelled from the spec: split `i` is feasible when the training window's
start does not precede the beginning of the available history (section 4.1
step 4). -/
abbrev feasibleSplit (cfg : MultipleTimeSeriesCV) (T i : Nat) : Prop :=
  (i + 1) * cfg.test_period_length + cfg.lookahead + cfg.train_period_length ≤ T

/-- Modelled from the spec: the (train positions, test positions) pair of
split `i` over the unique-timestamp axis `U` (section 4.1 steps 1-3).  The
test window is the block of `test_period_length` consecutive unique timestamps
ending `i * test_period_length` periods before the most recent timestamp, and
the training window is the block of `train_period_length` consecutive unique
timestamps ending `lookahead` periods before the start of the test window. -/
def splitPair (cfg : MultipleTimeSeriesCV) (rows : List Row) (U : List Int) (i : Nat) :
    List Nat × List Nat :=
  let s := U.length - (i + 1) * cfg.test_period_length
  let a := s - cfg.lookahead - cfg.train_period_length
  (positionsOf rows ((U.drop a).take cfg.train_period_length),
   positionsOf rows ((U.drop s).take cfg.test_period_length))

/-- Modelled from the spec: produce split pairs for `i = i0, i0 + 1, ...`, at
most `fuel` of them, stopping at the first split whose training window would
start before the beginning of history (section 4.1 step 4). -/
def splitFrom (cfg : MultipleTimeSeriesCV) (rows : List Row) (U : List Int) :
    Nat → Nat → List (List Nat × List Nat)
  | 0, _ => []
  | fuel + 1, i =>
    if feasibleSplit cfg U.length i then
      splitPair cfg rows U i :: splitFrom cfg rows U fuel (i + 1)
    else []

/-- Modelled from the spec: `split` computes the sorted unique timestamps of
the dataset and yields at most `n_splits` (train positions, test positions)
pairs, most recent test window first. -/
def MultipleTimeSeriesCV.split (cfg : MultipleTimeSeriesCV) (rows : List Row) :
    List (List Nat × List Nat) :=
  splitFrom cfg rows (uniqueTs rows) cfg.n_splits 0

/-- The number of splits for which the required training history is available,
given `T` unique timestamps. -/
def maxFeasibleSplits (cfg : MultipleTimeSeriesCV) (T : Nat) : Nat :=
  (T - cfg.lookahead - cfg.train_period_length) / cfg.test_period_length

/-- A valid configuration per the spec: positive `n_splits` and window lengths
(`lookahead`, a natural number here, is always non-negative). -/
def validConfig (cfg : MultipleTimeSeriesCV) : Prop :=
  0 < cfg.n_splits ∧ 0 < cfg.train_period_length ∧ 0 < cfg.test_period_length

/-- Modelled from the spec: shuffling only changes the order in which the
pairs are yielded; the randomized order is modelled as an explicit list of
indices into the unshuffled sequence. -/
def applyShuffle {α : Type} (order : List Nat) (xs : List α) : List α :=
  order.filterMap (fun k => xs[k]?)

/-- Modelled from the spec: `split` with shuffling enabled, the randomized
yield order being supplied explicitly. -/
def MultipleTimeSeriesCV.splitShuffled (cfg : MultipleTimeSeriesCV) (rows : List Row)
    (order : List Nat) : List (List Nat × List Nat) :=
  applyShuffle order (cfg.split rows)

/-- A synthetic single-entity panel with timestamps `1 .. n`, one row per
timestamp. -/
def mkRows (n : Nat) : List Row :=
  (List.range n).map (fun p => ⟨0, (p : Int) + 1⟩)

/-- A row of the hyperparameter-metrics table read from `model_tuning.h5`:
its `lookahead` scope column, its information-coefficient score `ic`
(a real-valued rank correlation, represented as a rational), and its
parameter columns, abstracted as a payload of type `α` since the selection
logic never inspects them. -/
structure MetricsRow (α : Type) where
  lookahead : Int
  ic : Rat
  params : α
deriving DecidableEq

/-- The descending-`ic` comparison used to model
`sort_values('ic', ascending=False)`. -/
def icGE {α : Type} (a b : MetricsRow α) : Prop := b.ic ≤ a.ic

instance {α : Type} : DecidableRel (@icGE α) :=
  fun a b => inferInstanceAs (Decidable (b.ic ≤ a.ic))

instance {α : Type} : IsTotal (MetricsRow α) icGE :=
  ⟨fun a b => le_total b.ic a.ic⟩

instance {α : Type} : IsTrans (MetricsRow α) icGE :=
  ⟨fun _ _ _ hab hbc => le_trans hbc hab⟩

/-- From the source: `get_lgb_params(data, t, best)` keeps the rows with
`lookahead == t`, sorts them by `ic` descending, takes the row at position
`best` and returns its parameter columns; `none` models the out-of-range
failure of `.iloc[best]`. -/
def get_lgb_params {α : Type} (table : List (MetricsRow α)) (t : Int) (best : Nat) :
    Option α :=
  ((((table.filter (fun r => decide (r.lookahead = t))).insertionSort icGE)[best]?).map
    MetricsRow.params)

/-- From the source: `get_cb_params(data, t, best)` — the CatBoost variant,
with the identical filter-sort-index selection logic. -/
def get_cb_params {α : Type} (table : List (MetricsRow α)) (t : Int) (best : Nat) :
    Option α :=
  ((((table.filter (fun r => decide (r.lookahead = t))).insertionSort icGE)[best]?).map
    MetricsRow.params)

/-- The ascending sorted list of distinct values of a column. -/
def sortedUniques (xs : List Int) : List Int :=
  (xs.dedup).insertionSort (· ≤ ·)

/-- The integer code that `pd.factorize(column, sort=True)` assigns to the
value `x`: the index of `x` in the ascending sorted list of distinct values. -/
def codeOf (xs : List Int) (x : Int) : Nat := (sortedUniques xs).indexOf x

/-- From the source: `pd.factorize(data[feature], sort=True)[0]` replaces
each entry of a categorical column by the code of its value. -/
def factorize (xs : List Int) : List Nat := xs.map (codeOf xs)

/-- The lexicographic (entity, timestamp) order that `DataFrame.sort_index()`
applies to a MultiIndex whose first level is the entity and whose second level
is the date. -/
def rowLE (a b : Row) : Prop :=
  a.entity < b.entity ∨ (a.entity = b.entity ∧ a.ts ≤ b.ts)

instance : DecidableRel rowLE :=
  fun a b => inferInstanceAs (Decidable (a.entity < b.entity ∨ (a.entity = b.entity ∧ a.ts ≤ b.ts)))

instance : IsTotal Row rowLE := by
  constructor
  intro a b
  rcases lt_trichotomy a.entity b.entity with h | h | h
  · exact Or.inl (Or.inl h)
  · rcases le_total a.ts b.ts with h2 | h2
    · exact Or.inl (Or.inr ⟨h, h2⟩)
    · exact Or.inr (Or.inr ⟨h.symm, h2⟩)
  · exact Or.inr (Or.inl h)

instance : IsTrans Row rowLE := by
  constructor
  intro a b c hab hbc
  rcases hab with h1 | ⟨h1, h1'⟩ <;> rcases hbc with h2 | ⟨h2, h2'⟩
  · exact Or.inl (lt_trans h1 h2)
  · exact Or.inl (h2 ▸ h1)
  · exact Or.inl (h1 ▸ h2)
  · exact Or.inr ⟨h1.trans h2, h1'.trans h2'⟩

/-- From the source: the notebook loads the panel and calls `.sort_index()`,
sorting rows lexicographically by (entity, timestamp), before it passes the
frame to `cv.split(X=data)`. -/
def sortIndex (rows : List Row) : List Row := rows.insertionSort rowLE

/-- The splitter input contract stated by the spec: rows sorted by timestamp
ascending. -/
def sortedByTs (rows : List Row) : Prop := (rows.map Row.ts).Sorted (· ≤ ·)

/-- Elements of a `drop`-then-`take` window are exactly the entries of `U` at
indices `a + k` with `k < n`. -/
lemma mem_window {U : List Int} {a n : Nat} {x : Int} :
    x ∈ (U.drop a).take n ↔ ∃ k, k < n ∧ U[a + k]? = some x := by
  constructor
  · intro hx
    rcases List.mem_iff_getElem?.1 hx with ⟨k, hk⟩
    have hklen : k < ((U.drop a).take n).length := (List.getElem?_eq_some.1 hk).1
    have hkn : k < n := by
      simp only [List.length_take, List.length_drop] at hklen
      omega
    refine ⟨k, hkn, ?_⟩
    rw [List.getElem?_take, if_pos hkn, List.getElem?_drop] at hk
    exact hk
  · rintro ⟨k, hkn, hk⟩
    apply List.mem_iff_getElem?.2
    refine ⟨k, ?_⟩
    rw [List.getElem?_take, if_pos hkn, List.getElem?_drop]
    exact hk

/-- A position belongs to `positionsOf rows w` exactly when the row there
exists and its timestamp lies in the window `w`. -/
lemma mem_positionsOf {rows : List Row} {w : List Int} {p : Nat} :
    p ∈ positionsOf rows w ↔ ∃ r, rows[p]? = some r ∧ r.ts ∈ w := by
  unfold positionsOf
  rw [List.mem_filter, List.mem_range]
  constructor
  · rintro ⟨hp, hb⟩
    cases hr : rows[p]? with
    | none => rw [hr] at hb; simp [Option.any] at hb
    | some r =>
      rw [hr] at hb
      exact ⟨r, rfl, by simpa [Option.any] using hb⟩
  · rintro ⟨r, hr, hw⟩
    have hp : p < rows.length := (List.getElem?_eq_some.1 hr).1
    exact ⟨hp, by rw [hr]; simpa [Option.any] using hw⟩

/-- Every entry of ` splitFrom cfg rows U fuel i0` at index `k` is the pair of
the feasible split `i0 + k`. -/
lemma splitFrom_getElem? (cfg : MultipleTimeSeriesCV) (rows : List Row) (U : List Int) :
    ∀ (fuel i0 k : Nat) (pr : List Nat × List Nat),
      (splitFrom cfg rows U fuel i0)[k]? = some pr →
      feasibleSplit cfg U.length (i0 + k) ∧ pr = splitPair cfg rows U (i0 + k) := by
  intro fuel
  induction fuel with
  | zero => intro i0 k pr h; simp [splitFrom] at h
  | succ fuel ih =>
    intro i0 k pr h
    by_cases hf : feasibleSplit cfg U.length i0
    · rw [splitFrom, if_pos hf] at h
      cases k with
      | zero =>
        rw [List.getElem?_cons_zero] at h
        exact ⟨by simpa using hf, (Option.some.inj h).symm⟩
      | succ k =>
        rw [List.getElem?_cons_succ] at h
        rcases ih (i0 + 1) k pr h with ⟨h1, h2⟩
        constructor
        · have he : i0 + 1 + k = i0 + (k + 1) := by omega
          rwa [he] at h1
        · rw [h2]; congr 1; omega
    · rw [splitFrom, if_neg hf] at h
      simp at h

/-- Every pair produced by `split` is the pair of some feasible split index. -/
lemma mem_split (cfg : MultipleTimeSeriesCV) (rows : List Row)
    {pr : List Nat × List Nat} (hpr : pr ∈ cfg.split rows) :
    ∃ i, feasibleSplit cfg (uniqueTs rows).length i ∧
      pr = splitPair cfg rows (uniqueTs rows) i := by
  rcases List.mem_iff_getElem?.1 hpr with ⟨k, hk⟩
  rcases splitFrom_getElem? cfg rows (uniqueTs rows) cfg.n_splits 0 k pr hk with ⟨h1, h2⟩
  exact ⟨k, by simpa using h1, by simpa using h2⟩

/-- The unique-timestamp axis has no duplicates. -/
lemma uniqueTs_nodup (rows : List Row) : (uniqueTs rows).Nodup := by
  unfold uniqueTs
  exact ((List.perm_insertionSort _ _).nodup_iff).2 (List.nodup_dedup _)

/-- The unique-timestamp axis is strictly increasing. -/
lemma uniqueTs_sorted (rows : List Row) : (uniqueTs rows).Sorted (· < ·) := by
  have h1 : (uniqueTs rows).Sorted (· ≤ ·) := List.sorted_insertionSort _ _
  exact h1.lt_of_le (uniqueTs_nodup rows)

/-- In a strictly increasing integer list, entries at indices `d` apart differ
by at least `d`. -/
lemma sorted_gap {U : List Int} (hU : U.Sorted (· < ·)) :
    ∀ (d i j : Nat) (x y : Int), U[i]? = some x → U[j]? = some y → i + d ≤ j →
      x + (d : Int) ≤ y := by
  intro d
  induction d with
  | zero =>
    intro i j x y hx hy hij
    rcases List.getElem?_eq_some.1 hx with ⟨hi, hxe⟩
    rcases List.getElem?_eq_some.1 hy with ⟨hj, hye⟩
    rcases Nat.lt_or_ge i j with hlt | hge
    · have hrel := List.pairwise_iff_getElem.1 hU i j hi hj hlt
      rw [hxe, hye] at hrel
      push_cast
      omega
    · have hij' : i = j := by omega
      subst hij'
      rw [hx] at hy
      have hxy := Option.some.inj hy
      push_cast
      omega
  | succ d ih =>
    intro i j x y hx hy hij
    have hj : j < U.length := (List.getElem?_eq_some.1 hy).1
    have hi1 : i + 1 < U.length := by omega
    have hi : i < U.length := by omega
    have hxe : U[i] = x := (List.getElem?_eq_some.1 hx).2
    have hadj : x < U[i + 1] := by
      have hrel := List.pairwise_iff_getElem.1 hU i (i + 1) hi hi1 (by omega)
      rwa [hxe] at hrel
    have h2 : U[i + 1] + (d : Int) ≤ y :=
      ih (i + 1) j (U[i + 1]) y (List.getElem?_eq_getElem hi1) hy (by omega)
    push_cast
    omega

set_option maxRecDepth 100000 in
/-- C1: on a dataset whose unique timestamps are exactly 1..100, the splitter
configured with n_splits = 3, train_period_length = 10, test_period_length = 5,
lookahead = 1 yields exactly three pairs, in order: test timestamps 96..100
with train timestamps 85..94, then test 91..95 with train 80..89, then test
86..90 with train 75..84. -/
theorem split_example_hundred :
    MultipleTimeSeriesCV.split ⟨3, 10, 5, 1⟩ (mkRows 100) =
      [(List.range' 84 10, List.range' 95 5),
       (List.range' 79 10, List.range' 90 5),
       (List.range' 74 10, List.range' 85 5)] ∧
    (MultipleTimeSeriesCV.split ⟨3, 10, 5, 1⟩ (mkRows 100)).map
      (fun pr => (pr.1.filterMap (fun p => ((mkRows 100)[p]?).map Row.ts),
                  pr.2.filterMap (fun p => ((mkRows 100)[p]?).map Row.ts))) =
      [((List.range' 85 10).map Int.ofNat, (List.range' 96 5).map Int.ofNat),
       ((List.range' 80 10).map Int.ofNat, (List.range' 91 5).map Int.ofNat),
       ((List.range' 75 10).map Int.ofNat, (List.range' 86 5).map Int.ofNat)] := by
  constructor <;> rfl

/-- C2 counterexample: with exactly 20 unique timestamps and n_splits = 3,
train_period_length = 10, test_period_length = 5, lookahead = 1, the splitter
does not yield 0 pairs — one split (train 10 + gap 1 + test 5 = 16 <= 20
timestamps) is still feasible. -/
theorem split_twenty_not_empty :
    ¬ (MultipleTimeSeriesCV.split ⟨3, 10, 5, 1⟩ (mkRows 20) = []) := by
  decide

/-- C2 amended: with exactly 20 unique timestamps the splitter yields exactly
one pair — test timestamps 16..20 (positions 15..19) and train timestamps
5..14 (positions 4..13) — and then terminates the sequence early, without
raising an error. -/
theorem split_twenty_yields_one :
    MultipleTimeSeriesCV.split ⟨3, 10, 5, 1⟩ (mkRows 20) =
      [(List.range' 4 10, List.range' 15 5)] := by
  rfl

/-- C3: no leakage — for every valid configuration and every panel dataset,
in every pair produced by `split` the timestamp of any train position plus
`lookahead` is at most the timestamp of any test position (every train
timestamp precedes every test timestamp by more than `lookahead` periods). -/
theorem split_no_leakage (cfg : MultipleTimeSeriesCV) (rows : List Row)
    (hv : validConfig cfg)
    (pr : List Nat × List Nat) (hpr : pr ∈ cfg.split rows)
    (p q : Nat) (hp : p ∈ pr.1) (hq : q ∈ pr.2)
    (rp rq : Row) (hrp : rows[p]? = some rp) (hrq : rows[q]? = some rq) :
    rp.ts + (cfg.lookahead : Int) ≤ rq.ts := by
  rcases mem_split cfg rows hpr with ⟨i, hfeas, rfl⟩
  simp only [splitPair] at hp hq
  rcases mem_positionsOf.1 hp with ⟨rp', hrp', hwp⟩
  rcases mem_positionsOf.1 hq with ⟨rq', hrq', hwq⟩
  have hep : rp' = rp := by rw [hrp] at hrp'; exact (Option.some.inj hrp').symm
  have heq : rq' = rq := by rw [hrq] at hrq'; exact (Option.some.inj hrq').symm
  subst hep heq
  obtain ⟨k1, hk1, hU1⟩ := mem_window.1 hwp
  obtain ⟨k2, hk2, hU2⟩ := mem_window.1 hwq
  have harith :
      ((uniqueTs rows).length - (i + 1) * cfg.test_period_length - cfg.lookahead
          - cfg.train_period_length + k1) + (cfg.lookahead + 1) ≤
        ((uniqueTs rows).length - (i + 1) * cfg.test_period_length) + k2 := by
    have hfeas2 : (i + 1) * cfg.test_period_length + cfg.lookahead
        + cfg.train_period_length ≤ (uniqueTs rows).length := hfeas
    omega
  have hgap := sorted_gap (uniqueTs_sorted rows) (cfg.lookahead + 1) _ _ _ _ hU1 hU2 harith
  push_cast at hgap
  omega

/-- C3 witness: a concrete instantiation of the no-leakage theorem. -/
theorem split_no_leakage_witness :
    (⟨0, 1⟩ : Row).ts + (((⟨1, 1, 1, 0⟩ : MultipleTimeSeriesCV).lookahead : Nat) : Int) ≤
      (⟨0, 2⟩ : Row).ts :=
  split_no_leakage ⟨1, 1, 1, 0⟩ (mkRows 2) ⟨Nat.one_pos, Nat.one_pos, Nat.one_pos⟩
    ([0], [1]) (by decide) 0 1 (by decide) (by decide) ⟨0, 1⟩ ⟨0, 2⟩ (by decide) (by decide)

/-- C4: for every valid configuration (`lookahead` may be 0) and every
dataset, the train and test position sets of each produced pair are disjoint,
and the test position sets of distinct produced pairs never intersect. -/
theorem split_disjointness (cfg : MultipleTimeSeriesCV) (rows : List Row)
    (hv : validConfig cfg) :
    (∀ pr ∈ cfg.split rows, ∀ p, p ∈ pr.1 → p ∉ pr.2) ∧
    (∀ (k1 k2 : Nat) (pr1 pr2 : List Nat × List Nat), k1 ≠ k2 →
      (cfg.split rows)[k1]? = some pr1 → (cfg.split rows)[k2]? = some pr2 →
      ∀ p, p ∈ pr1.2 → p ∉ pr2.2) := by
  constructor
  · intro pr hpr p hp hq
    rcases mem_split cfg rows hpr with ⟨i, hfeas, rfl⟩
    simp only [splitPair] at hp hq
    rcases mem_positionsOf.1 hp with ⟨r1, hr1, hw1⟩
    rcases mem_positionsOf.1 hq with ⟨r2, hr2, hw2⟩
    have hre : r1 = r2 := by rw [hr1] at hr2; exact Option.some.inj hr2
    subst hre
    obtain ⟨k1, hk1, hU1⟩ := mem_window.1 hw1
    obtain ⟨k2, hk2, hU2⟩ := mem_window.1 hw2
    have hlen1 : (uniqueTs rows).length - (i + 1) * cfg.test_period_length - cfg.lookahead
        - cfg.train_period_length + k1 < (uniqueTs rows).length :=
      (List.getElem?_eq_some.1 hU1).1
    have hidx := List.getElem?_inj hlen1 (uniqueTs_nodup rows) (hU1.trans hU2.symm)
    have hfeas2 : (i + 1) * cfg.test_period_length + cfg.lookahead
        + cfg.train_period_length ≤ (uniqueTs rows).length := hfeas
    omega
  · intro k1 k2 pr1 pr2 hne h1 h2 p hp hq
    simp only [MultipleTimeSeriesCV.split] at h1 h2
    obtain ⟨hf1, he1⟩ := splitFrom_getElem? cfg rows (uniqueTs rows) cfg.n_splits 0 k1 pr1 h1
    obtain ⟨hf2, he2⟩ := splitFrom_getElem? cfg rows (uniqueTs rows) cfg.n_splits 0 k2 pr2 h2
    simp only [Nat.zero_add] at hf1 hf2 he1 he2
    subst he1 he2
    simp only [splitPair] at hp hq
    rcases mem_positionsOf.1 hp with ⟨r1, hr1, hw1⟩
    rcases mem_positionsOf.1 hq with ⟨r2, hr2, hw2⟩
    have hre : r1 = r2 := by rw [hr1] at hr2; exact Option.some.inj hr2
    subst hre
    obtain ⟨a, ha, hU1⟩ := mem_window.1 hw1
    obtain ⟨b, hb, hU2⟩ := mem_window.1 hw2
    have hlen1 : (uniqueTs rows).length - (k1 + 1) * cfg.test_period_length + a
        < (uniqueTs rows).length := (List.getElem?_eq_some.1 hU1).1
    have hidx := List.getElem?_inj hlen1 (uniqueTs_nodup rows) (hU1.trans hU2.symm)
    have hf1' : (k1 + 1) * cfg.test_period_length + cfg.lookahead
        + cfg.train_period_length ≤ (uniqueTs rows).length := hf1
    have hf2' : (k2 + 1) * cfg.test_period_length + cfg.lookahead
        + cfg.train_period_length ≤ (uniqueTs rows).length := hf2
    rcases Nat.lt_or_ge k1 k2 with hlt | hge
    · have hmul : (k1 + 1) * cfg.test_period_length + cfg.test_period_length
          ≤ (k2 + 1) * cfg.test_period_length := by
        have hstep : (k1 + 1) * cfg.test_period_length + cfg.test_period_length
            = (k1 + 2) * cfg.test_period_length := by ring
        rw [hstep]
        exact Nat.mul_le_mul_right _ (by omega)
      omega
    · have hlt : k2 < k1 := by omega
      have hmul : (k2 + 1) * cfg.test_period_length + cfg.test_period_length
          ≤ (k1 + 1) * cfg.test_period_length := by
        have hstep : (k2 + 1) * cfg.test_period_length + cfg.test_period_length
            = (k2 + 2) * cfg.test_period_length := by ring
        rw [hstep]
        exact Nat.mul_le_mul_right _ (by omega)
      omega

/-- C4 witness: a concrete instantiation of the disjointness theorem. -/
theorem split_disjointness_witness :
    (∀ pr ∈ MultipleTimeSeriesCV.split ⟨2, 1, 1, 0⟩ (mkRows 3), ∀ p, p ∈ pr.1 → p ∉ pr.2) ∧
    (∀ (k1 k2 : Nat) (pr1 pr2 : List Nat × List Nat), k1 ≠ k2 →
      (MultipleTimeSeriesCV.split ⟨2, 1, 1, 0⟩ (mkRows 3))[k1]? = some pr1 →
      (MultipleTimeSeriesCV.split ⟨2, 1, 1, 0⟩ (mkRows 3))[k2]? = some pr2 →
      ∀ p, p ∈ pr1.2 → p ∉ pr2.2) :=
  split_disjointness ⟨2, 1, 1, 0⟩ (mkRows 3) ⟨Nat.two_pos, Nat.one_pos, Nat.one_pos⟩

/-- Feasibility of split `i` is exactly `i < maxFeasibleSplits`. -/
lemma feasible_iff_lt_max (cfg : MultipleTimeSeriesCV) (T i : Nat)
    (hL : 0 < cfg.test_period_length) :
    feasibleSplit cfg T i ↔ i < maxFeasibleSplits cfg T := by
  have key := @Nat.le_div_iff_mul_le cfg.test_period_length (i + 1)
    (T - cfg.lookahead - cfg.train_period_length) hL
  have hpos : 0 < (i + 1) * cfg.test_period_length := Nat.mul_pos (Nat.succ_pos i) hL
  unfold maxFeasibleSplits
  constructor
  · intro hf
    have h1 : (i + 1) * cfg.test_period_length
        ≤ T - cfg.lookahead - cfg.train_period_length := by omega
    have h2 := key.2 h1
    omega
  · intro hlt
    have h1 : i + 1 ≤ (T - cfg.lookahead - cfg.train_period_length)
        / cfg.test_period_length := hlt
    have h2 := key.1 h1
    omega

/-- Length of the produced sequence, parametric in fuel and start index. -/
lemma splitFrom_length (cfg : MultipleTimeSeriesCV) (rows : List Row) (U : List Int)
    (hL : 0 < cfg.test_period_length) :
    ∀ (fuel i0 : Nat),
      (splitFrom cfg rows U fuel i0).length
        = min fuel (maxFeasibleSplits cfg U.length - i0) := by
  intro fuel
  induction fuel with
  | zero => intro i0; simp [splitFrom]
  | succ fuel ih =>
    intro i0
    by_cases hf : feasibleSplit cfg U.length i0
    · rw [splitFrom, if_pos hf]
      have hlt := (feasible_iff_lt_max cfg U.length i0 hL).1 hf
      simp only [List.length_cons, ih (i0 + 1)]
      omega
    · rw [splitFrom, if_neg hf]
      have hge : ¬ i0 < maxFeasibleSplits cfg U.length :=
        fun h => hf ((feasible_iff_lt_max cfg U.length i0 hL).2 h)
      simp only [List.length_nil]
      omega

/-- C5: for every valid configuration and dataset, the number of produced
pairs is min(n_splits, maximum feasible number of splits given available
history), where `maxFeasibleSplits` is exactly the feasibility bound (split
`i` is feasible iff `i < maxFeasibleSplits`); fewer feasible than requested
simply ends the sequence early, and `split` is a total function (no error). -/
theorem split_count (cfg : MultipleTimeSeriesCV) (rows : List Row) (hv : validConfig cfg) :
    (cfg.split rows).length
      = min cfg.n_splits (maxFeasibleSplits cfg (uniqueTs rows).length) ∧
    (∀ i, feasibleSplit cfg (uniqueTs rows).length i
      ↔ i < maxFeasibleSplits cfg (uniqueTs rows).length) := by
  obtain ⟨h1, h2, h3⟩ := hv
  constructor
  · have hlen := splitFrom_length cfg rows (uniqueTs rows) h3 cfg.n_splits 0
    simpa using hlen
  · intro i
    exact feasible_iff_lt_max cfg (uniqueTs rows).length i h3

/-- C5 witness: with 20 unique timestamps and the example configuration the
bound evaluates to one produced pair. -/
theorem split_count_witness :
    (MultipleTimeSeriesCV.split ⟨3, 10, 5, 1⟩ (mkRows 20)).length
      = min (3 : Nat) (maxFeasibleSplits ⟨3, 10, 5, 1⟩ (uniqueTs (mkRows 20)).length) ∧
    (∀ i, feasibleSplit ⟨3, 10, 5, 1⟩ (uniqueTs (mkRows 20)).length i
      ↔ i < maxFeasibleSplits ⟨3, 10, 5, 1⟩ (uniqueTs (mkRows 20)).length) :=
  split_count ⟨3, 10, 5, 1⟩ (mkRows 20) ⟨by decide, by decide, by decide⟩

/-- C6: constructing the splitter fails with a configuration error if and
only if `n_splits`, `train_period_length` or `test_period_length` is
non-positive or `lookahead` is negative; the check happens inside the
constructor `mkMultipleTimeSeriesCV`, before `split` can ever be called. -/
theorem mk_config_error_iff (n train test look : Int) :
    (∃ msg, mkMultipleTimeSeriesCV n train test look = Except.error msg) ↔
      (n ≤ 0 ∨ train ≤ 0 ∨ test ≤ 0 ∨ look < 0) := by
  unfold mkMultipleTimeSeriesCV
  by_cases h : n ≤ 0 ∨ train ≤ 0 ∨ test ≤ 0 ∨ look < 0
  · rw [if_pos h]
    exact ⟨fun _ => h, fun _ => ⟨("configuration error"), rfl⟩⟩
  · rw [if_neg h]
    constructor
    · rintro ⟨msg, hmsg⟩
      cases hmsg
    · intro hc
      exact absurd hc h

/-- Shuffling with the identity order returns the sequence unchanged. -/
lemma applyShuffle_range {α : Type} (xs : List α) :
    applyShuffle (List.range xs.length) xs = xs := by
  unfold applyShuffle
  induction xs with
  | nil => rfl
  | cons a t ih =>
    rw [List.length_cons, List.range_succ_eq_map, List.filterMap_cons]
    simp only [List.getElem?_cons_zero]
    rw [List.filterMap_map]
    have hfun : ((fun k => (a :: t)[k]?) ∘ Nat.succ) = (fun k => t[k]?) := by
      funext k
      simp [Function.comp]
    rw [hfun, ih]

/-- Any shuffle order that is a permutation of the index range yields a
permutation of the unshuffled sequence. -/
lemma applyShuffle_perm {α : Type} (xs : List α) (order : List Nat)
    (h : order.Perm (List.range xs.length)) :
    (applyShuffle order xs).Perm xs := by
  have h2 : (applyShuffle order xs).Perm (applyShuffle (List.range xs.length) xs) := by
    unfold applyShuffle
    exact List.Perm.filterMap _ h
  rw [applyShuffle_range xs] at h2
  exact h2

/-- C7: `split` is a pure function of its configuration and the dataset and
mutates neither; without shuffling (identity order) the produced sequence is
identical, and any two admissible shuffle orders yield the same set of pairs
— each pair's train/test membership unchanged — merely reordered. -/
theorem split_idempotent_shuffle (cfg : MultipleTimeSeriesCV) (rows : List Row)
    (o1 o2 : List Nat)
    (h1 : o1.Perm (List.range (cfg.split rows).length))
    (h2 : o2.Perm (List.range (cfg.split rows).length)) :
    cfg.splitShuffled rows (List.range (cfg.split rows).length) = cfg.split rows ∧
    (cfg.splitShuffled rows o1).Perm (cfg.split rows) ∧
    (cfg.splitShuffled rows o1).Perm (cfg.splitShuffled rows o2) := by
  refine ⟨applyShuffle_range _, applyShuffle_perm _ _ h1, ?_⟩
  exact (applyShuffle_perm _ _ h1).trans (applyShuffle_perm _ _ h2).symm

/-- C7 witness: a concrete instantiation of the shuffle theorem. -/
theorem split_idempotent_shuffle_witness :
    MultipleTimeSeriesCV.splitShuffled ⟨1, 1, 1, 0⟩ (mkRows 2)
        (List.range (MultipleTimeSeriesCV.split ⟨1, 1, 1, 0⟩ (mkRows 2)).length)
      = MultipleTimeSeriesCV.split ⟨1, 1, 1, 0⟩ (mkRows 2) ∧
    (MultipleTimeSeriesCV.splitShuffled ⟨1, 1, 1, 0⟩ (mkRows 2) [0]).Perm
      (MultipleTimeSeriesCV.split ⟨1, 1, 1, 0⟩ (mkRows 2)) ∧
    (MultipleTimeSeriesCV.splitShuffled ⟨1, 1, 1, 0⟩ (mkRows 2) [0]).Perm
      (MultipleTimeSeriesCV.splitShuffled ⟨1, 1, 1, 0⟩ (mkRows 2) [0]) :=
  split_idempotent_shuffle ⟨1, 1, 1, 0⟩ (mkRows 2) [0] [0] (by decide) (by decide)

/-- C8 counterexample: `sort_index()` on a (entity, date) MultiIndex orders
rows entity-major, so with two entities whose dates interleave the resulting
row sequence is not sorted by timestamp ascending — the dataset the notebook
passes to `split` does not satisfy the contract as stated. -/
theorem sortIndex_not_ts_sorted :
    ¬ sortedByTs (sortIndex [⟨1, 10⟩, ⟨0, 20⟩]) := by
  intro h
  unfold sortedByTs at h
  have hcomp : (sortIndex [⟨1, 10⟩, ⟨0, 20⟩] : List Row) = [⟨0, 20⟩, ⟨1, 10⟩] := by rfl
  rw [hcomp] at h
  simp only [List.map_cons, List.map_nil, List.sorted_cons, List.mem_singleton] at h
  have h20 : (20 : Int) ≤ 10 := h.1 10 rfl
  omega

/-- C8 amended: the panel the notebook passes to `split` is sorted
lexicographically by (entity, timestamp) — entity-major, chronological within
each entity — and it is globally sorted by timestamp ascending when all rows
belong to a single entity. -/
theorem sortIndex_lex_sorted (rows : List Row) :
    (sortIndex rows).Sorted rowLE ∧
    ((∀ r1 ∈ rows, ∀ r2 ∈ rows, r1.entity = r2.entity) → sortedByTs (sortIndex rows)) := by
  constructor
  · exact List.sorted_insertionSort rowLE rows
  · intro hent
    have hs : (sortIndex rows).Pairwise rowLE := List.sorted_insertionSort rowLE rows
    have hmem : ∀ r ∈ sortIndex rows, r ∈ rows :=
      fun r hr => (List.perm_insertionSort rowLE rows).mem_iff.1 hr
    have hts : (sortIndex rows).Pairwise (fun a b => a.ts ≤ b.ts) := by
      refine List.Pairwise.imp_of_mem ?_ hs
      intro a b ha hb hab
      rcases hab with h | ⟨h, h'⟩
      · exact absurd h (by rw [hent _ (hmem _ ha) _ (hmem _ hb)]; exact lt_irrefl _)
      · exact h'
    unfold sortedByTs
    exact List.pairwise_map.2 hts

/-- C8 amended witness: a single-entity panel stays timestamp-sorted. -/
theorem sortIndex_lex_sorted_witness :
    (sortIndex [⟨0, 2⟩, ⟨0, 1⟩]).Sorted rowLE ∧ sortedByTs (sortIndex [⟨0, 2⟩, ⟨0, 1⟩]) :=
  ⟨(sortIndex_lex_sorted [⟨0, 2⟩, ⟨0, 1⟩]).1,
   (sortIndex_lex_sorted [⟨0, 2⟩, ⟨0, 1⟩]).2 (by decide)⟩

/-- Membership in a `take` is membership at an index below the cutoff. -/
lemma mem_take_iff {α : Type} {l : List α} {n : Nat} {x : α} :
    x ∈ l.take n ↔ ∃ k, k < n ∧ l[k]? = some x := by
  constructor
  · intro hx
    rcases List.mem_iff_getElem?.1 hx with ⟨k, hk⟩
    have hklen : k < (l.take n).length := (List.getElem?_eq_some.1 hk).1
    have hkn : k < n := by
      simp only [List.length_take] at hklen
      omega
    refine ⟨k, hkn, ?_⟩
    rwa [List.getElem?_take, if_pos hkn] at hk
  · rintro ⟨k, hkn, hk⟩
    exact List.mem_iff_getElem?.2 ⟨k, by rw [List.getElem?_take, if_pos hkn]; exact hk⟩

/-- Membership in a `drop` is membership at an index at or past the cutoff. -/
lemma mem_drop_iff {α : Type} {l : List α} {n : Nat} {x : α} :
    x ∈ l.drop n ↔ ∃ k, l[n + k]? = some x := by
  constructor
  · intro hx
    rcases List.mem_iff_getElem?.1 hx with ⟨k, hk⟩
    rw [List.getElem?_drop] at hk
    exact ⟨k, hk⟩
  · rintro ⟨k, hk⟩
    exact List.mem_iff_getElem?.2 ⟨k, by rw [List.getElem?_drop]; exact hk⟩

/-- C9: on a metrics table whose `ic` values among the rows with
`lookahead == t` are pairwise distinct, and for any rank `best` with at least
`best + 1` such rows, `get_lgb_params` and `get_cb_params` both return
exactly the parameter columns of the row holding the (best+1)-th highest `ic`
— the row such that exactly `best` of those rows score strictly higher. -/
theorem get_params_rank_selection {α : Type} (table : List (MetricsRow α)) (t : Int)
    (best : Nat)
    (hdist : (table.filter (fun r => decide (r.lookahead = t))).Pairwise
      (fun a b => a.ic ≠ b.ic))
    (hbest : best < (table.filter (fun r => decide (r.lookahead = t))).length) :
    ∃ r, r ∈ table.filter (fun r => decide (r.lookahead = t)) ∧
      ((table.filter (fun r => decide (r.lookahead = t))).filter
        (fun x => decide (r.ic < x.ic))).length = best ∧
      get_lgb_params table t best = some r.params ∧
      get_cb_params table t best = some r.params := by
  set F := table.filter (fun r => decide (r.lookahead = t)) with hF
  set S := F.insertionSort icGE with hS
  have hperm : S.Perm F := List.perm_insertionSort icGE F
  have hsorted : S.Sorted icGE := List.sorted_insertionSort icGE F
  have hlenS : S.length = F.length := hperm.length_eq
  have hbestS : best < S.length := by omega
  have hdistS : S.Pairwise (fun a b => a.ic ≠ b.ic) :=
    (List.Perm.pairwise_iff (fun hxy => Ne.symm hxy) hperm).2 hdist
  obtain ⟨r0, hr0⟩ : ∃ r0 : MetricsRow α, S[best] = r0 := ⟨S[best], rfl⟩
  refine ⟨r0, ?_, ?_, ?_, ?_⟩
  · rw [← hr0]
    exact hperm.subset (List.getElem_mem hbestS)
  · -- counting: exactly `best` rows of F have strictly higher ic
    have hkey : ∀ j, (hj : j < S.length) → (r0.ic < (S[j]).ic ↔ j < best) := by
      intro j hj
      rcases lt_trichotomy j best with hlt | heq | hgt
      · constructor
        · intro _; exact hlt
        · intro _
          have hge : icGE S[j] S[best] :=
            List.pairwise_iff_getElem.1 hsorted j best hj hbestS hlt
          have hne : (S[j]).ic ≠ (S[best]).ic :=
            List.pairwise_iff_getElem.1 hdistS j best hj hbestS hlt
          rw [hr0] at hge hne
          exact lt_of_le_of_ne hge (Ne.symm hne)
      · subst heq
        rw [hr0]
        constructor
        · intro hcon; exact absurd hcon (lt_irrefl _)
        · intro hcon; exact absurd hcon (lt_irrefl _)
      · constructor
        · intro hcon
          have hge : icGE S[best] S[j] :=
            List.pairwise_iff_getElem.1 hsorted best j hbestS hj hgt
          rw [hr0] at hge
          exact absurd hcon (not_lt_of_le hge)
        · intro hcon; omega
    have htake : (S.take best).filter (fun x => decide (r0.ic < x.ic))
        = S.take best := by
      refine List.filter_eq_self.2 ?_
      intro x hx
      rcases mem_take_iff.1 hx with ⟨k, hkb, hk⟩
      rcases List.getElem?_eq_some.1 hk with ⟨hklen, hke⟩
      subst hke
      exact decide_eq_true ((hkey k hklen).2 hkb)
    have hdrop : (S.drop best).filter (fun x => decide (r0.ic < x.ic)) = [] := by
      refine List.filter_eq_nil_iff.2 ?_
      intro x hx
      rcases mem_drop_iff.1 hx with ⟨k, hk⟩
      rcases List.getElem?_eq_some.1 hk with ⟨hklen, hke⟩
      subst hke
      intro hcon
      have := (hkey (best + k) hklen).1 (of_decide_eq_true hcon)
      omega
    have hcountS : (S.filter (fun x => decide (r0.ic < x.ic))).length = best := by
      conv_lhs => rw [show S = S.take best ++ S.drop best from (List.take_append_drop best S).symm]
      rw [List.filter_append, htake, hdrop, List.length_append, List.length_nil,
        List.length_take]
      omega
    have hpermF := (hperm.filter (fun x => decide (r0.ic < x.ic))).length_eq
    omega
  · show ((F.insertionSort icGE)[best]?).map MetricsRow.params = some (r0.params)
    rw [← hS, List.getElem?_eq_getElem hbestS, hr0]
    rfl
  · show ((F.insertionSort icGE)[best]?).map MetricsRow.params = some (r0.params)
    rw [← hS, List.getElem?_eq_getElem hbestS, hr0]
    rfl

/-- C9 witness: on a three-row table with two rows at lookahead 1 and distinct
ic scores, rank 0 selects the parameter payload of the higher-ic row. -/
theorem get_params_rank_selection_witness :
    ∃ r, r ∈ ([⟨1, 2, 10⟩, ⟨1, 5, 20⟩, ⟨2, 9, 30⟩] : List (MetricsRow Nat)).filter
        (fun r => decide (r.lookahead = 1)) ∧
      ((([⟨1, 2, 10⟩, ⟨1, 5, 20⟩, ⟨2, 9, 30⟩] : List (MetricsRow Nat)).filter
        (fun r => decide (r.lookahead = 1))).filter
          (fun x => decide (r.ic < x.ic))).length = 0 ∧
      get_lgb_params [⟨1, 2, 10⟩, ⟨1, 5, 20⟩, ⟨2, 9, 30⟩] 1 0 = some r.params ∧
      get_cb_params [⟨1, 2, 10⟩, ⟨1, 5, 20⟩, ⟨2, 9, 30⟩] 1 0 = some r.params :=
  get_params_rank_selection [⟨1, 2, 10⟩, ⟨1, 5, 20⟩, ⟨2, 9, 30⟩] 1 0
    (by decide) (by decide)

/-- The sorted distinct values of a column have no duplicates. -/
lemma sortedUniques_nodup (xs : List Int) : (sortedUniques xs).Nodup := by
  unfold sortedUniques
  exact ((List.perm_insertionSort _ _).nodup_iff).2 (List.nodup_dedup _)

/-- The sorted distinct values of a column are strictly increasing. -/
lemma sortedUniques_sorted (xs : List Int) : (sortedUniques xs).Sorted (· < ·) := by
  have h1 : (sortedUniques xs).Sorted (· ≤ ·) := List.sorted_insertionSort _ _
  exact h1.lt_of_le (sortedUniques_nodup xs)

/-- A value occurs among the sorted distinct values iff it occurs in the
column. -/
lemma mem_sortedUniques {xs : List Int} {x : Int} :
    x ∈ sortedUniques xs ↔ x ∈ xs := by
  unfold sortedUniques
  rw [(List.perm_insertionSort _ _).mem_iff, List.mem_dedup]

/-- C10: the factorization step replaces each entry of a categorical column
by an integer code that is a deterministic, order-preserving function of the
original value: codes compare strictly exactly as the original values do, and
equal values always receive equal codes. -/
theorem factorize_monotone (xs : List Int) (i j : Nat) (a b : Int)
    (ha : xs[i]? = some a) (hb : xs[j]? = some b) :
    (factorize xs)[i]? = some (codeOf xs a) ∧
    (codeOf xs a < codeOf xs b ↔ a < b) ∧
    (a = b → codeOf xs a = codeOf xs b) := by
  refine ⟨?_, ?_, fun h => by rw [h]⟩
  · unfold factorize
    rw [List.getElem?_map, ha]
    rfl
  · have hmema : a ∈ sortedUniques xs := mem_sortedUniques.2 (List.mem_iff_getElem?.2 ⟨i, ha⟩)
    have hmemb : b ∈ sortedUniques xs := mem_sortedUniques.2 (List.mem_iff_getElem?.2 ⟨j, hb⟩)
    have hsort := sortedUniques_sorted xs
    unfold codeOf
    have hna : List.indexOf a (sortedUniques xs) < (sortedUniques xs).length :=
      List.indexOf_lt_length.2 hmema
    have hnb : List.indexOf b (sortedUniques xs) < (sortedUniques xs).length :=
      List.indexOf_lt_length.2 hmemb
    have hga : (sortedUniques xs)[List.indexOf a (sortedUniques xs)] = a :=
      List.getElem_indexOf hna
    have hgb : (sortedUniques xs)[List.indexOf b (sortedUniques xs)] = b :=
      List.getElem_indexOf hnb
    constructor
    · intro hlt
      have hrel := List.pairwise_iff_getElem.1 hsort _ _ hna hnb hlt
      rwa [hga, hgb] at hrel
    · intro hab
      rcases lt_trichotomy (List.indexOf a (sortedUniques xs))
        (List.indexOf b (sortedUniques xs)) with h | h | h
      · exact h
      · exfalso
        have h' : (sortedUniques xs)[List.indexOf a (sortedUniques xs)]?
            = (sortedUniques xs)[List.indexOf b (sortedUniques xs)]? := by rw [h]
        rw [List.getElem?_eq_getElem hna, List.getElem?_eq_getElem hnb, hga, hgb] at h'
        exact absurd (Option.some.inj h') (ne_of_lt hab)
      · exfalso
        have hrel := List.pairwise_iff_getElem.1 hsort _ _ hnb hna h
        rw [hga, hgb] at hrel
        exact absurd hab (not_lt_of_gt hrel)

/-- C10 witness: a concrete column with values 3 and 1. -/
theorem factorize_monotone_witness :
    (factorize [3, 1, 3])[0]? = some (codeOf [3, 1, 3] 3) ∧
    (codeOf [3, 1, 3] 3 < codeOf [3, 1, 3] 1 ↔ (3 : Int) < 1) ∧
    ((3 : Int) = 1 → codeOf [3, 1, 3] 3 = codeOf [3, 1, 3] 1) :=
  factorize_monotone [3, 1, 3] 0 1 3 1 (by decide) (by decide)

end MLT
